import Mathlib

/-!
# Multiclip — verified model of the clipboard history store

Shallow embedding of the clipboard-history logic of the `multiclip`
repository. Two Go implementations exist in the repository:

* `main.go` (root): `ClipboardManager` with fields `clips`, `lastContent`,
  operations `addClip` (trim, skip empty / lastContent, promote-by-move,
  prepend, truncate to 5, record lastContent), `getClips`, `setClip`, and a
  clear action in `updateMenu` that assigns `clips = []string{}`;
  persistence via `json.Marshal` / `json.Unmarshal` of `[]string`.
* `multiclip/src/main.go` (variant): `ClipboardManager` with `AddItem`
  (trim, skip empty or >200 chars, skip duplicates outright, prepend,
  truncate to 5) and `GetHistory` (returns a copied slice).

The value-level model below follows the root `main.go`; the JSON layer
models `saveClips` / `loadClips`; a heap model of Go slice semantics is
used where aliasing of the backing array is observable. Go strings are
modelled as Lean `String` (sequences of Unicode scalar values); byte
sequences that are not valid UTF-8 are outside the model.
-/

namespace Multiclip

/-! ## Whitespace and `strings.TrimSpace`

Go's `strings.TrimSpace` removes leading and trailing runes for which
`unicode.IsSpace` holds, i.e. the White_Space property:
`\t \n \v \f \r` (0x09–0x0D), space, U+0085, U+00A0, U+1680,
U+2000–U+200A, U+2028, U+2029, U+202F, U+205F, U+3000. -/

def goIsSpace (c : Char) : Bool :=
  let n := c.toNat
  (0x9 ≤ n && n ≤ 0xD) || n == 0x20 || n == 0x85 || n == 0xA0 ||
    n == 0x1680 || (0x2000 ≤ n && n ≤ 0x200A) || n == 0x2028 ||
    n == 0x2029 || n == 0x202F || n == 0x205F || n == 0x3000

/-- Go `strings.TrimSpace`: drop `goIsSpace` runes from both ends. -/
def goTrimSpace (s : String) : String :=
  ⟨((s.data.dropWhile goIsSpace).reverse.dropWhile goIsSpace).reverse⟩

/-! ## The root `ClipboardManager` (value level)

`main.go`:

```go
const maxClips = 5

type ClipboardManager struct {
    clips       []string
    lastContent string
    dataFile    string
}
```

`dataFile` and the persistence side effect of `addClip` (`saveClips`) are
I/O collaborators; the JSON encoding itself is modelled separately below. -/

def maxClips : Nat := 5

structure ClipboardManager where
  clips : List String
  lastContent : String
deriving DecidableEq, Repr

/-- Fresh store before hydration: `make([]string, 0, maxClips)` and the
zero value `""` for `lastContent`. -/
def initialManager : ClipboardManager := { clips := [], lastContent := "" }

/-- The removal loop of `addClip`: scan `clips`, splice out the first
element equal to `content`, then `break`.

```go
for i, clip := range cm.clips {
    if clip == content {
        cm.clips = append(cm.clips[:i], cm.clips[i+1:]...)
        break
    }
}
``` -/
def removeClip : List String → String → List String
  | [], _ => []
  | clip :: rest, content =>
      if clip = content then rest else clip :: removeClip rest content

/-- `addClip` of `main.go`:

```go
func (cm *ClipboardManager) addClip(content string) {
    content = strings.TrimSpace(content)
    if content == "" || content == cm.lastContent {
        return
    }
    // Remove if already exists
    ...
    // Add to front
    cm.clips = append([]string{content}, cm.clips...)
    // Keep only last 5
    if len(cm.clips) > maxClips {
        cm.clips = cm.clips[:maxClips]
    }
    cm.lastContent = content
    cm.saveClips()
}
``` -/
def addClip (cm : ClipboardManager) (content : String) : ClipboardManager :=
  let content := goTrimSpace content
  if content = "" ∨ content = cm.lastContent then cm
  else
    let clips := removeClip cm.clips content
    let clips := content :: clips
    let clips := if clips.length > maxClips then clips.take maxClips else clips
    { clips := clips, lastContent := content }

/-- `getClips` returns the `clips` field (at value level; the aliasing of
the returned slice is modelled separately in the heap model below). -/
def getClips (cm : ClipboardManager) : List String := cm.clips

/-- `setClip` writes to the OS clipboard (external collaborator) and
records `cm.lastContent = content`. -/
def setClip (cm : ClipboardManager) (content : String) : ClipboardManager :=
  { cm with lastContent := content }

/-- The "Clear History" action in `updateMenu`:
`clipManager.clips = []string{}` followed by `saveClips()`;
`lastContent` is not touched. -/
def clearClips (cm : ClipboardManager) : ClipboardManager :=
  { cm with clips := [] }

/-- The store operations a caller can perform. -/
inductive Op where
  | insert (text : String)
  | clear
  | setAndRecord (text : String)
deriving DecidableEq, Repr

def applyOp (cm : ClipboardManager) : Op → ClipboardManager
  | .insert t => addClip cm t
  | .clear => clearClips cm
  | .setAndRecord t => setClip cm t

/-- The documented store invariants (spec §3): no duplicate entries,
length bounded by the capacity, every entry non-empty and trimmed. -/
def Invariant (cm : ClipboardManager) : Prop :=
  cm.clips.Nodup ∧ cm.clips.length ≤ maxClips ∧
    ∀ e ∈ cm.clips, goTrimSpace e = e ∧ e ≠ ""

instance (cm : ClipboardManager) : Decidable (Invariant cm) := by
  unfold Invariant; infer_instance

/-! ## Basic lemmas about `addClip` -/

theorem addClip_length_le (cm : ClipboardManager) (t : String)
    (h : cm.clips.length ≤ maxClips) :
    (addClip cm t).clips.length ≤ maxClips := by
  unfold addClip
  dsimp only
  split
  · exact h
  · split
    · show (List.take maxClips _).length ≤ maxClips
      simp only [List.length_take]
      omega
    · rename_i h2
      show (goTrimSpace t :: removeClip _ _).length ≤ maxClips
      omega

theorem removeClip_of_not_mem {l : List String} {c : String}
    (h : c ∉ l) : removeClip l c = l := by
  induction l with
  | nil => rfl
  | cons a as ih =>
      rw [removeClip]
      rw [if_neg (by rintro rfl; exact h (List.mem_cons_self a as))]
      rw [ih (fun hm => h (List.mem_cons_of_mem _ hm))]

theorem removeClip_sublist (l : List String) (c : String) :
    (removeClip l c).Sublist l := by
  induction l with
  | nil => simp [removeClip]
  | cons a as ih =>
      rw [removeClip]
      split
      · exact (List.sublist_cons_self a as)
      · exact List.Sublist.cons₂ a ih

theorem not_mem_removeClip {l : List String} {c : String}
    (h : l.Nodup) : c ∉ removeClip l c := by
  induction l with
  | nil => simp [removeClip]
  | cons a as ih =>
      rw [removeClip]
      rcases List.nodup_cons.mp h with ⟨ha, has⟩
      split
      · rename_i heq; subst heq; exact ha
      · rename_i hne
        intro hmem
        rcases List.mem_cons.mp hmem with h1 | h1
        · exact hne h1.symm
        · exact ih has h1

theorem goTrimSpace_eq_empty {t : String} (h : ∀ c ∈ t.data, goIsSpace c) :
    goTrimSpace t = "" := by
  unfold goTrimSpace
  rw [List.dropWhile_eq_nil_iff.mpr h]
  rfl

/-! ## Claim theorems: no-op guards and frame conditions -/

/-- C8: inserting text that is empty or consists only of whitespace is a
no-op: both `clips` and `lastContent` are unchanged. -/
theorem addClip_whitespace_noop (cm : ClipboardManager) (t : String)
    (h : ∀ c ∈ t.data, goIsSpace c) : addClip cm t = cm := by
  unfold addClip
  dsimp only
  rw [goTrimSpace_eq_empty h]
  simp

/-- Witness for C8 at the whitespace input `"  \t "`. -/
theorem addClip_whitespace_noop_witness :
    (∀ c ∈ ("  \t " : String).data, goIsSpace c) ∧
      addClip initialManager "  \t " = initialManager :=
  ⟨by decide, addClip_whitespace_noop initialManager "  \t " (by decide)⟩

/-- C4: if the trimmed candidate equals `lastContent`, `addClip` is a
no-op (the feedback-loop suppression guard `content == cm.lastContent`). -/
theorem addClip_lastContent_noop (cm : ClipboardManager) (t : String)
    (h : goTrimSpace t = cm.lastContent) : addClip cm t = cm := by
  unfold addClip
  dsimp only
  rw [if_pos (Or.inr h)]

/-- Witness for C4: insert `"x"`, then `setClip "x"` (click-to-copy), then
the clipboard watch observes `"x"` again; history keeps exactly one
occurrence of `"x"`. -/
theorem addClip_lastContent_noop_witness :
    goTrimSpace "x" = (setClip (addClip initialManager "x") "x").lastContent ∧
      addClip (setClip (addClip initialManager "x") "x") "x" =
        setClip (addClip initialManager "x") "x" ∧
      (setClip (addClip initialManager "x") "x").clips.count "x" = 1 :=
  ⟨by decide, addClip_lastContent_noop _ "x" (by decide), by decide⟩

/-- C7: the clear action empties `clips`, leaves `lastContent` unchanged,
and a subsequent insert of a fresh text stores that text normally. -/
theorem clearClips_spec (cm : ClipboardManager) (t : String)
    (h1 : goTrimSpace t ≠ "") (h2 : goTrimSpace t ≠ cm.lastContent) :
    (clearClips cm).clips = [] ∧
      (clearClips cm).lastContent = cm.lastContent ∧
      (addClip (clearClips cm) t).clips = [goTrimSpace t] := by
  refine ⟨rfl, rfl, ?_⟩
  unfold addClip clearClips
  dsimp only
  rw [if_neg (by push_neg; exact ⟨h1, h2⟩)]
  rfl

/-- Witness for C7 on the store holding `["a"]`, clearing, then
inserting `"b"`. -/
theorem clearClips_spec_witness :
    goTrimSpace "b" ≠ "" ∧
      (clearClips (addClip initialManager "a")).clips = [] ∧
      (clearClips (addClip initialManager "a")).lastContent =
        (addClip initialManager "a").lastContent ∧
      (addClip (clearClips (addClip initialManager "a")) "b").clips =
        [goTrimSpace "b"] :=
  ⟨by decide,
    clearClips_spec (addClip initialManager "a") "b" (by decide) (by decide)⟩

/-- C3 step lemma: `addClip` preserves absence of duplicates. -/
theorem addClip_nodup (cm : ClipboardManager) (t : String)
    (h : cm.clips.Nodup) : (addClip cm t).clips.Nodup := by
  unfold addClip
  dsimp only
  split
  · exact h
  · have h1 : (removeClip cm.clips (goTrimSpace t)).Nodup :=
      (removeClip_sublist _ _).nodup h
    have h2 : (goTrimSpace t :: removeClip cm.clips (goTrimSpace t)).Nodup :=
      List.nodup_cons.mpr ⟨not_mem_removeClip h, h1⟩
    split
    · exact (List.take_sublist _ _).nodup h2
    · exact h2

/-- C3: every operation (insert, clear, set-and-record) preserves the
no-duplicates invariant of `clips` under full-string equality. -/
theorem applyOp_preserves_nodup (cm : ClipboardManager) (op : Op)
    (h : cm.clips.Nodup) : (applyOp cm op).clips.Nodup := by
  cases op with
  | insert t => exact addClip_nodup cm t h
  | clear => simp [applyOp, clearClips]
  | setAndRecord t => exact h

/-- Witness for C3 on the duplicate-free store `["b", "a"]` and a
promoting insert of `"a"`. -/
theorem applyOp_preserves_nodup_witness :
    (addClip (addClip initialManager "a") "b").clips.Nodup ∧
      (applyOp (addClip (addClip initialManager "a") "b")
          (Op.insert "a")).clips.Nodup :=
  ⟨by decide,
    applyOp_preserves_nodup (addClip (addClip initialManager "a") "b")
      (Op.insert "a") (by decide)⟩

/-- C1 step: `addClip` keeps the length bound. -/
theorem foldl_addClip_length (ts : List String) (cm : ClipboardManager)
    (h : cm.clips.length ≤ maxClips) :
    ((ts.foldl addClip cm).clips).length ≤ maxClips := by
  induction ts generalizing cm with
  | nil => exact h
  | cons t ts ih => exact ih _ (addClip_length_le cm t h)

/-- C1: after any sequence of inserts from the empty store, the snapshot
holds at most `maxClips = 5` entries. -/
theorem snapshot_length_le_capacity (ts : List String) :
    (getClips (ts.foldl addClip initialManager)).length ≤ 5 :=
  foldl_addClip_length ts initialManager (by decide)

/-! ## Promotion (C2) -/

/-- When `c` sits at position `k` of a duplicate-free list, the removal
loop deletes exactly that position. -/
theorem removeClip_eq_eraseIdx {l : List String} {c : String} {k : Nat}
    (hnd : l.Nodup) (hk : k < l.length) (hget : l.get ⟨k, hk⟩ = c) :
    removeClip l c = l.eraseIdx k := by
  induction l generalizing k with
  | nil => simp at hk
  | cons a as ih =>
      cases k with
      | zero =>
          simp only [List.get] at hget
          rw [removeClip, if_pos hget, List.eraseIdx_cons_zero]
      | succ k =>
          rcases List.nodup_cons.mp hnd with ⟨ha, hnd'⟩
          have hk' : k < as.length := by simpa using hk
          have hget' : as.get ⟨k, hk'⟩ = c := hget
          have hne : a ≠ c := by
            rintro rfl
            exact ha (hget' ▸ List.get_mem as k hk')
          rw [removeClip, if_neg hne, ih hnd' hk' hget',
            List.eraseIdx_cons_succ]

/-- C2: inserting text whose trimmed form already occurs at position
`k > 0` (and differs from `lastContent`) moves that entry to the front,
closes the gap at `k` (preserving everyone else's relative order), and
leaves the length unchanged. -/
theorem addClip_promotes (cm : ClipboardManager) (t : String) (k : Nat)
    (hinv : Invariant cm) (hk : k < cm.clips.length) (hk0 : 0 < k)
    (hget : cm.clips.get ⟨k, hk⟩ = goTrimSpace t)
    (hlast : goTrimSpace t ≠ cm.lastContent) :
    (addClip cm t).clips = goTrimSpace t :: cm.clips.eraseIdx k ∧
      (addClip cm t).clips.length = cm.clips.length := by
  obtain ⟨hnd, hlen, hcln⟩ := hinv
  have hne : goTrimSpace t ≠ "" :=
    (hcln _ (hget ▸ List.get_mem cm.clips k hk)).2
  have hrm : removeClip cm.clips (goTrimSpace t) = cm.clips.eraseIdx k :=
    removeClip_eq_eraseIdx hnd hk hget
  have herase : (cm.clips.eraseIdx k).length = cm.clips.length - 1 :=
    List.length_eraseIdx_of_lt hk
  have hstep : (addClip cm t).clips =
      goTrimSpace t :: cm.clips.eraseIdx k := by
    unfold addClip
    dsimp only
    rw [if_neg (by push_neg; exact ⟨hne, hlast⟩), hrm,
      if_neg (by simp only [List.length_cons, herase]; omega)]
  exact ⟨hstep, by rw [hstep]; simp only [List.length_cons, herase]; omega⟩

/-- Witness for C2: insert `"a"`, `"b"`, `"c"`, then `"a"` again — the
snapshot becomes `["a", "c", "b"]`. -/
theorem addClip_promotes_witness :
    (0 : Nat) < 2 ∧
      getClips (addClip (List.foldl addClip initialManager ["a", "b", "c"])
        "a") = ["a", "c", "b"] := by
  have h := addClip_promotes (List.foldl addClip initialManager ["a", "b", "c"])
    "a" 2 (by decide) (by decide) (by decide) (by decide) (by decide)
  refine ⟨by decide, ?_⟩
  show (addClip (List.foldl addClip initialManager ["a", "b", "c"]) "a").clips
      = ["a", "c", "b"]
  rw [h.1]
  decide

/-! ## Eviction order (C5) -/

/-- The Go truncation step applied to a freshly prepended head turns
`take maxClips` of the tail into `take maxClips` of the whole. -/
theorem truncate_cons_take (t : String) (r : List String) :
    (if (t :: r.take maxClips).length > maxClips
       then (t :: r.take maxClips).take maxClips else t :: r.take maxClips)
      = (t :: r).take maxClips := by
  by_cases h : r.length ≤ 4
  · have h1 : r.take maxClips = r := List.take_of_length_le (by unfold maxClips; omega)
    rw [h1, if_neg (by simp only [List.length_cons]; unfold maxClips; omega),
      List.take_of_length_le (by simp only [List.length_cons]; unfold maxClips; omega)]
  · have hc : (t :: r.take maxClips).length > maxClips := by
      simp only [List.length_cons, List.length_take]
      unfold maxClips
      omega
    rw [if_pos hc]
    show (t :: r.take maxClips).take (4 + 1) = (t :: r).take (4 + 1)
    rw [List.take_succ_cons, List.take_succ_cons, List.take_take]
    norm_num [maxClips]

/-- Inserting a clean text not present in `r`, into a store whose clips
are `take maxClips r` with a different `lastContent`, yields
`take maxClips (t :: r)`. -/
theorem addClip_fresh (cm : ClipboardManager) (t : String) (r : List String)
    (hclips : cm.clips = r.take maxClips)
    (ht : goTrimSpace t = t) (hne : t ≠ "") (hlast : t ≠ cm.lastContent)
    (hmem : t ∉ r) :
    addClip cm t = { clips := (t :: r).take maxClips, lastContent := t } := by
  have hrm : removeClip cm.clips t = cm.clips := by
    apply removeClip_of_not_mem
    rw [hclips]
    intro hmem'
    exact hmem (List.take_subset _ _ hmem')
  unfold addClip
  dsimp only
  rw [ht, if_neg (by push_neg; exact ⟨hne, hlast⟩), hrm, hclips,
    ClipboardManager.mk.injEq]
  exact ⟨truncate_cons_take t r, rfl⟩

/-- Folding distinct clean inserts from the empty store keeps the
`maxClips` most recent, most-recent-first, and `lastContent` is either
still `""` or one of the inserted texts. -/
theorem foldl_addClip_distinct (ts : List String)
    (hnd : ts.Nodup) (hcl : ∀ t ∈ ts, goTrimSpace t = t ∧ t ≠ "") :
    (ts.foldl addClip initialManager).clips = ts.reverse.take maxClips ∧
      ((ts.foldl addClip initialManager).lastContent = "" ∨
        (ts.foldl addClip initialManager).lastContent ∈ ts) := by
  induction ts using List.reverseRecOn with
  | nil => exact ⟨rfl, Or.inl rfl⟩
  | append_singleton ts' t ih =>
      have hnd' : ts'.Nodup ∧ t ∉ ts' := by
        rw [List.nodup_append] at hnd
        exact ⟨hnd.1, fun hm => hnd.2.2 hm (List.mem_singleton_self t)⟩
      have hcl' : ∀ x ∈ ts', goTrimSpace x = x ∧ x ≠ "" :=
        fun x hx => hcl x (List.mem_append_left _ hx)
      obtain ⟨ihc, ihl⟩ := ih hnd'.1 hcl'
      obtain ⟨ht, hne⟩ := hcl t (List.mem_append_right _ (List.mem_singleton_self t))
      have hlast : t ≠ (ts'.foldl addClip initialManager).lastContent := by
        rcases ihl with h | h
        · rw [h]; exact hne
        · intro heq; exact hnd'.2 (heq ▸ h)
      have hstep := addClip_fresh (ts'.foldl addClip initialManager) t
        ts'.reverse (by rw [ihc]) ht hne hlast (by simpa using hnd'.2)
      rw [List.foldl_append, List.foldl_cons, List.foldl_nil, hstep]
      constructor
      · rw [List.reverse_append]
        rfl
      · exact Or.inr (List.mem_append_right _ (List.mem_singleton_self t))

/-- C5: inserting more than five distinct, clean texts into the empty
store retains exactly the five most recently inserted ones,
most-recent-first — the oldest are evicted. -/
theorem addClip_eviction (ts : List String)
    (hnd : ts.Nodup) (hcl : ∀ t ∈ ts, goTrimSpace t = t ∧ t ≠ "")
    (_hlen : 5 < ts.length) :
    getClips (ts.foldl addClip initialManager) = ts.reverse.take 5 :=
  (foldl_addClip_distinct ts hnd hcl).1

/-- Witness for C5: inserting `"a"` … `"f"` yields
`["f", "e", "d", "c", "b"]` — `"a"` has been evicted. -/
theorem addClip_eviction_witness :
    (["a", "b", "c", "d", "e", "f"] : List String).Nodup ∧
      getClips (List.foldl addClip initialManager
        ["a", "b", "c", "d", "e", "f"]) = ["f", "e", "d", "c", "b"] := by
  refine ⟨by decide, ?_⟩
  rw [addClip_eviction ["a", "b", "c", "d", "e", "f"] (by decide) (by decide)
    (by decide)]
  decide

/-! ## Persistence: `saveClips` / `loadClips` (JSON array of strings)

`saveClips` runs `json.Marshal(cm.clips)` and writes the bytes to the data
file; `loadClips` reads the file and runs `json.Unmarshal(data, &cm.clips)`,
ignoring all errors. We model the file contents as a sequence of Unicode
scalar values and mirror `encoding/json`'s encoder (HTML escaping on, the
default for `json.Marshal`) and its string/array decoder. -/

/-- Lowercase hex digit, as emitted by `encoding/json`. -/
def hexDigitChar (n : Nat) : Char :=
  if n < 10 then Char.ofNat (48 + n) else Char.ofNat (87 + n)

/-- One rune of a Go JSON string literal, as `encoding/json` emits it with
HTML escaping enabled: `"` `\` get backslash escapes, `\n` `\r` `\t` get
their short forms, other control runes become `\u00xx`, `<` `>` `&` become
`<` `>` `&`, U+2028/U+2029 become ` `/` `, and
everything else is written verbatim. -/
def escapeChar (c : Char) : List Char :=
  if c = '"' then ['\\', '"']
  else if c = '\\' then ['\\', '\\']
  else if c = '\n' then ['\\', 'n']
  else if c = '\r' then ['\\', 'r']
  else if c = '\t' then ['\\', 't']
  else if c.toNat < 0x20 then
    ['\\', 'u', '0', '0', hexDigitChar (c.toNat / 16), hexDigitChar (c.toNat % 16)]
  else if c = '<' ∨ c = '>' ∨ c = '&' then
    ['\\', 'u', '0', '0', hexDigitChar (c.toNat / 16), hexDigitChar (c.toNat % 16)]
  else if c.toNat = 0x2028 ∨ c.toNat = 0x2029 then
    ['\\', 'u', '2', '0', '2', hexDigitChar (c.toNat % 16)]
  else [c]

def escapeList : List Char → List Char
  | [] => []
  | c :: cs => escapeChar c ++ escapeList cs

def marshalString (s : String) : List Char :=
  '"' :: (escapeList s.data ++ ['"'])

/-- `json.Marshal` of a non-nil `[]string` emits the elements comma
separated with no spaces. -/
def marshalElems : List String → List Char
  | [] => []
  | [s] => marshalString s
  | s :: rest => marshalString s ++ ',' :: marshalElems rest

def marshalClips (l : List String) : List Char :=
  '[' :: (marshalElems l ++ [']'])

/-- JSON inter-token whitespace accepted by the decoder. -/
def jsonWs (c : Char) : Bool :=
  c = ' ' || c = '\t' || c = '\n' || c = '\r'

def skipWs (s : List Char) : List Char := s.dropWhile jsonWs

/-- Hex digit value, upper or lower case (Go's `getu4`). -/
def hexVal (c : Char) : Option Nat :=
  if '0' ≤ c ∧ c ≤ '9' then some (c.toNat - 48)
  else if 'a' ≤ c ∧ c ≤ 'f' then some (c.toNat - 87)
  else if 'A' ≤ c ∧ c ≤ 'F' then some (c.toNat - 55)
  else none

def hex4 (a b c d : Char) : Option Nat :=
  match hexVal a, hexVal b, hexVal c, hexVal d with
  | some x, some y, some z, some w => some (((x * 16 + y) * 16 + z) * 16 + w)
  | _, _, _, _ => none

/-- Body of a JSON string literal after the opening quote, following Go's
scanner and `unquote`: raw control runes are rejected, short escapes and
`\uXXXX` are decoded, surrogate pairs are combined, and a lone or broken
surrogate escape decodes to U+FFFD with only the first escape consumed.
The first argument is recursion fuel (every step consumes at least one
input character, so `input.length + 1` fuel always suffices); it keeps
the recursion structural so that the kernel can evaluate the parser. -/
def parseStringBody : Nat → List Char → List Char → Option (List Char × List Char)
  | 0, _, _ => none
  | _ + 1, _, [] => none
  | fuel + 1, acc, c :: rest =>
    if c = '"' then some (acc, rest)
    else if c = '\\' then
      match rest with
      | [] => none
      | e :: rest2 =>
        if e = '"' then parseStringBody fuel (acc ++ ['"']) rest2
        else if e = '\\' then parseStringBody fuel (acc ++ ['\\']) rest2
        else if e = '/' then parseStringBody fuel (acc ++ ['/']) rest2
        else if e = 'b' then parseStringBody fuel (acc ++ [Char.ofNat 0x8]) rest2
        else if e = 'f' then parseStringBody fuel (acc ++ [Char.ofNat 0xC]) rest2
        else if e = 'n' then parseStringBody fuel (acc ++ ['\n']) rest2
        else if e = 'r' then parseStringBody fuel (acc ++ [Char.ofNat 0xD]) rest2
        else if e = 't' then parseStringBody fuel (acc ++ ['\t']) rest2
        else if e = 'u' then
          match rest2 with
          | a :: b :: c2 :: d :: rest3 =>
            match hex4 a b c2 d with
            | none => none
            | some n =>
              if n < 0xD800 ∨ 0xE000 ≤ n then
                parseStringBody fuel (acc ++ [Char.ofNat n]) rest3
              else
                match rest3 with
                | e1 :: e2 :: a2 :: b2 :: c3 :: d2 :: rest4 =>
                  if e1 = '\\' ∧ e2 = 'u' then
                    match hex4 a2 b2 c3 d2 with
                    | some m =>
                      if n ≤ 0xDBFF ∧ 0xDC00 ≤ m ∧ m ≤ 0xDFFF then
                        parseStringBody fuel (acc ++
                          [Char.ofNat (0x10000 + (n - 0xD800) * 0x400 + (m - 0xDC00))]) rest4
                      else parseStringBody fuel (acc ++ [Char.ofNat 0xFFFD]) rest3
                    | none => parseStringBody fuel (acc ++ [Char.ofNat 0xFFFD]) rest3
                  else parseStringBody fuel (acc ++ [Char.ofNat 0xFFFD]) rest3
                | _ => parseStringBody fuel (acc ++ [Char.ofNat 0xFFFD]) rest3
          | _ => none
        else none
    else if c.toNat < 0x20 then none
    else parseStringBody fuel (acc ++ [c]) rest

/-- A JSON string token, leading whitespace allowed. -/
def parseJString (s : List Char) : Option (String × List Char) :=
  match skipWs s with
  | [] => none
  | c :: rest =>
    if c = '"' then
      match parseStringBody (rest.length + 1) [] rest with
      | some (chars, rest2) => some (⟨chars⟩, rest2)
      | none => none
    else none

/-- The elements of a non-empty JSON array of strings, starting after the
opening bracket (and any whitespace), consuming the closing bracket. -/
def parseElems : Nat → List Char → Option (List String × List Char)
  | 0, _ => none
  | fuel + 1, s =>
    match parseJString s with
    | none => none
    | some (str, rest) =>
      match skipWs rest with
      | [] => none
      | c :: rest2 =>
        if c = ',' then
          match parseElems fuel rest2 with
          | some (strs, rest3) => some (str :: strs, rest3)
          | none => none
        else if c = ']' then some ([str], rest2)
        else none

/-- `json.Unmarshal(data, &clips)` for a `[]string` target: the whole
input must be a single JSON array of strings (whitespace around tokens
allowed, nothing but whitespace after it). -/
def unmarshalClips (s : List Char) : Option (List String) :=
  match skipWs s with
  | [] => none
  | c :: rest =>
    if c = '[' then
      match skipWs rest with
      | [] => none
      | c2 :: rest2 =>
        if c2 = ']' then
          if (skipWs rest2).isEmpty then some [] else none
        else
          match parseElems (s.length + 1) (c2 :: rest2) with
          | none => none
          | some (strs, rest3) =>
            if (skipWs rest3).isEmpty then some strs else none
    else none


/-! ## Round trip of the JSON layer (C9, C10) -/

theorem hexVal_hexDigitChar : ∀ k < 16, hexVal (hexDigitChar k) = some k := by
  decide

/-- Parsing a `\u00XY` escape appends the encoded control rune. -/
theorem parseStringBody_u00 (fuel : Nat) (acc rest : List Char) (n : Nat)
    (hn : n < 0x20) :
    parseStringBody (fuel + 1) acc
      (['\\', 'u', '0', '0', hexDigitChar (n / 16), hexDigitChar (n % 16)] ++ rest) =
      parseStringBody fuel (acc ++ [Char.ofNat n]) rest := by
  interval_cases n <;> rfl

/-- Eating one escaped source rune continues the parse with that rune
appended: the decoder inverts `escapeChar`. -/
theorem parseStringBody_escapeChar (c : Char) (acc rest : List Char) (fuel : Nat) :
    parseStringBody (fuel + 1) acc (escapeChar c ++ rest) =
      parseStringBody fuel (acc ++ [c]) rest := by
  by_cases h1 : c = '"'
  · subst h1; rfl
  by_cases h2 : c = '\\'
  · subst h2; rfl
  by_cases h3 : c = '\n'
  · subst h3; rfl
  by_cases h4 : c = '\r'
  · subst h4; rfl
  by_cases h5 : c = '\t'
  · subst h5; rfl
  by_cases h6 : c.toNat < 0x20
  · rw [escapeChar, if_neg h1, if_neg h2, if_neg h3, if_neg h4, if_neg h5,
      if_pos h6, parseStringBody_u00 fuel acc rest c.toNat h6, Char.ofNat_toNat]
  by_cases h7 : c = '<'
  · subst h7; rfl
  by_cases h8 : c = '>'
  · subst h8; rfl
  by_cases h9 : c = '&'
  · subst h9; rfl
  by_cases h10 : c.toNat = 0x2028
  · have hc : c = Char.ofNat 0x2028 := by rw [← Char.ofNat_toNat c, h10]
    subst hc; rfl
  by_cases h11 : c.toNat = 0x2029
  · have hc : c = Char.ofNat 0x2029 := by rw [← Char.ofNat_toNat c, h11]
    subst hc; rfl
  rw [escapeChar, if_neg h1, if_neg h2, if_neg h3, if_neg h4, if_neg h5,
    if_neg h6, if_neg (by push_neg; exact ⟨h7, h8, h9⟩),
    if_neg (by push_neg; exact ⟨h10, h11⟩)]
  show parseStringBody (fuel + 1) acc (c :: rest) = _
  simp only [parseStringBody]
  rw [if_neg h1, if_neg h2, if_neg h6]

/-- The string-body parser inverts `escapeList` up to the closing quote. -/
theorem parseStringBody_escapeList (s : List Char) :
    ∀ (acc rest : List Char) (fuel : Nat), s.length < fuel →
      parseStringBody fuel acc (escapeList s ++ '"' :: rest) =
        some (acc ++ s, rest) := by
  induction s with
  | nil =>
      intro acc rest fuel hf
      obtain ⟨f, rfl⟩ : ∃ f, fuel = f + 1 := ⟨fuel - 1, by omega⟩
      simp [escapeList, parseStringBody]
  | cons c cs ih =>
      intro acc rest fuel hf
      obtain ⟨f, rfl⟩ : ∃ f, fuel = f + 1 := ⟨fuel - 1, by omega⟩
      rw [escapeList, List.append_assoc, parseStringBody_escapeChar,
        ih (acc ++ [c]) rest f (by simp only [List.length_cons] at hf; omega)]
      simp

theorem escapeList_length_ge (s : List Char) : s.length ≤ (escapeList s).length := by
  induction s with
  | nil => simp [escapeList]
  | cons c cs ih =>
      have h1 : 1 ≤ (escapeChar c).length := by
        unfold escapeChar
        split_ifs <;> simp
      simp only [escapeList, List.length_append, List.length_cons]
      omega

/-- The string-token parser inverts `marshalString`. -/
theorem parseJString_marshalString (s : String) (rest : List Char) :
    parseJString (marshalString s ++ rest) = some (s, rest) := by
  have harr : marshalString s ++ rest =
      '"' :: (escapeList s.data ++ ('"' :: rest)) := by
    simp [marshalString]
  rw [harr]
  unfold parseJString
  rw [show skipWs ('"' :: (escapeList s.data ++ ('"' :: rest))) =
      '"' :: (escapeList s.data ++ ('"' :: rest)) from rfl]
  dsimp only
  rw [if_pos rfl,
    parseStringBody_escapeList s.data [] rest _ (by
      simp only [List.length_append, List.length_cons]
      have := escapeList_length_ge s.data
      omega)]
  rfl

/-- The element parser inverts `marshalElems` for non-empty lists, given
fuel at least the number of elements. -/
theorem parseElems_marshalElems (ss : List String) :
    ∀ (rest : List Char) (fuel : Nat), ss ≠ [] → ss.length ≤ fuel →
      parseElems fuel (marshalElems ss ++ ']' :: rest) = some (ss, rest) := by
  induction ss with
  | nil => intro _ _ h _; exact absurd rfl h
  | cons s ss ih =>
      intro rest fuel _ hf
      obtain ⟨f, rfl⟩ : ∃ f, fuel = f + 1 :=
        ⟨fuel - 1, by simp only [List.length_cons] at hf; omega⟩
      cases ss with
      | nil =>
          rw [show marshalElems [s] = marshalString s from rfl]
          simp only [parseElems]
          rw [parseJString_marshalString s (']' :: rest)]
          dsimp only
          rw [show skipWs (']' :: rest) = ']' :: rest from rfl]
          dsimp only
          rw [if_neg (by decide), if_pos rfl]
      | cons s2 ss2 =>
          rw [show marshalElems (s :: s2 :: ss2) =
              marshalString s ++ ',' :: marshalElems (s2 :: ss2) from rfl,
            List.append_assoc,
            show (',' :: marshalElems (s2 :: ss2)) ++ ']' :: rest =
              ',' :: (marshalElems (s2 :: ss2) ++ ']' :: rest) from rfl]
          simp only [parseElems]
          rw [parseJString_marshalString s _]
          dsimp only
          rw [show skipWs (',' :: (marshalElems (s2 :: ss2) ++ ']' :: rest)) =
              ',' :: (marshalElems (s2 :: ss2) ++ ']' :: rest) from rfl]
          dsimp only
          rw [if_pos rfl,
            ih rest f (by simp) (by simp only [List.length_cons] at hf ⊢; omega)]

theorem marshalElems_length_ge (ss : List String) :
    ss.length ≤ (marshalElems ss).length := by
  induction ss with
  | nil => simp [marshalElems]
  | cons s ss ih =>
      cases ss with
      | nil => simp [marshalElems, marshalString]
      | cons s2 ss2 =>
          rw [show marshalElems (s :: s2 :: ss2) =
              marshalString s ++ ',' :: marshalElems (s2 :: ss2) from rfl]
          simp only [List.length_cons, List.length_append, marshalString] at ih ⊢
          omega

/-- A freshly marshalled non-empty list starts with a quote. -/
theorem marshalElems_cons_head (s : String) (ss : List String) :
    ∃ Y, marshalElems (s :: ss) = '"' :: Y := by
  cases ss <;> exact ⟨_, rfl⟩

/-- C9 core: `json.Unmarshal` inverts `json.Marshal` on string lists. -/
theorem unmarshal_marshal (l : List String) :
    unmarshalClips (marshalClips l) = some l := by
  cases l with
  | nil => decide
  | cons s ss =>
      obtain ⟨Y, hY⟩ := marshalElems_cons_head s ss
      unfold unmarshalClips marshalClips
      rw [hY]
      rw [show skipWs ('[' :: (('"' :: Y) ++ [']'])) =
          '[' :: (('"' :: Y) ++ [']']) from rfl]
      dsimp only
      rw [if_pos rfl,
        show ('"' :: Y) ++ [']'] = '"' :: (Y ++ [']']) from rfl,
        show skipWs ('"' :: (Y ++ [']'])) = '"' :: (Y ++ [']']) from rfl]
      dsimp only
      rw [if_neg (by decide),
        show '"' :: (Y ++ [']']) = marshalElems (s :: ss) ++ ']' :: [] from by
          rw [hY]; rfl,
        parseElems_marshalElems (s :: ss) []
          (('[' :: (marshalElems (s :: ss) ++ [']'])).length + 1) (by simp)
          (by
            have h1 := marshalElems_length_ge (s :: ss)
            simp only [List.length_cons, List.length_append] at h1 ⊢
            omega)]
      rfl

/-! ## Persistence wrappers and hydration (C9, C10)

`loadClips` ignores a missing file ("start with empty clips") and ignores
`json.Unmarshal` errors, leaving `clips` as the empty slice it was
initialized with; on success `clips` becomes exactly the decoded array —
no trimming, no deduplication, no truncation to `maxClips`.
`NewClipboardManager` builds the fresh store and hydrates it. -/

def saveClips (cm : ClipboardManager) : List Char := marshalClips cm.clips

def loadClips : Option (List Char) → List String
  | none => []
  | some data =>
    match unmarshalClips data with
    | some l => l
    | none => []

def NewClipboardManager (fileData : Option (List Char)) : ClipboardManager :=
  { clips := loadClips fileData, lastContent := "" }

/-- C9: saving a store's entries with `saveClips` and hydrating a fresh
store from the written file restores the same entries in the same order. -/
theorem save_load_round_trip (cm : ClipboardManager) :
    (NewClipboardManager (some (saveClips cm))).clips = cm.clips := by
  simp [NewClipboardManager, loadClips, saveClips, unmarshal_marshal]

/-- C10: hydration is verbatim — whatever string array the persisted file
decodes to becomes `clips` unchanged: no trimming, no deduplication, no
truncation to the capacity. -/
theorem hydration_verbatim (data : List Char) (l : List String)
    (h : unmarshalClips data = some l) :
    (NewClipboardManager (some data)).clips = l := by
  simp [NewClipboardManager, loadClips, h]

/-- Witness for C10: a persisted file holding six entries with duplicates
and untrimmed text hydrates verbatim, so the fresh store violates the
documented invariants (length ≤ 5, no duplicates, trimmed entries). -/
theorem hydration_verbatim_witness :
    unmarshalClips ("[\"a \",\"a \",\"b\",\"b\",\"c\",\"c\"]" : String).data =
        some ["a ", "a ", "b", "b", "c", "c"] ∧
      (NewClipboardManager
          (some ("[\"a \",\"a \",\"b\",\"b\",\"c\",\"c\"]" : String).data)).clips =
        ["a ", "a ", "b", "b", "c", "c"] ∧
      ¬ Invariant (NewClipboardManager
          (some ("[\"a \",\"a \",\"b\",\"b\",\"c\",\"c\"]" : String).data)) :=
  ⟨by decide, hydration_verbatim _ _ (by decide), by decide⟩

/-! ## Go slice semantics (C6)

`getClips` of the root `main.go` returns `cm.clips` itself — the slice
header, not a copy — while the variant's `GetHistory` copies. Whether a
previously returned snapshot is affected by later mutation is a question
about the backing arrays, so here slices are modelled explicitly: a heap
of allocated arrays (each inner list's length is the array's capacity,
unused cells hold Go's zero value `""`) and slice headers
(array id, offset, length). `append` writes in place when the backing
array has room after the offset, and allocates a fresh array otherwise
(Go may over-allocate capacity on growth; the model allocates exactly the
new length, which is unobservable here because every in-place append this
program performs fits inside the live region). -/

structure GoSlice where
  arr : Nat
  off : Nat
  len : Nat
deriving DecidableEq, Repr

abbrev Heap := List (List String)

def readArr (h : Heap) (a : Nat) : List String := h.getD a []

def readSlice (h : Heap) (sl : GoSlice) : List String :=
  ((readArr h sl.arr).drop sl.off).take sl.len

def allocArray (h : Heap) (cells : List String) : Heap × Nat :=
  (h ++ [cells], h.length)

/-- Overwrite consecutive cells starting at position `p`. -/
def setCells (cells : List String) (p : Nat) : List String → List String
  | [] => cells
  | v :: vs => setCells (cells.set p v) (p + 1) vs

def writeArr (h : Heap) (a p : Nat) (vals : List String) : Heap :=
  h.set a (setCells (readArr h a) p vals)

/-- Go `append(dst, vals...)`: in place when the backing array has room,
otherwise into a fresh array holding the combined contents. The source
values are passed as a value list, read before any cell is written; this
matches Go's forward copy, which never reads a cell it has already
overwritten. -/
def goAppend (h : Heap) (dst : GoSlice) (vals : List String) : Heap × GoSlice :=
  if dst.off + dst.len + vals.length ≤ (readArr h dst.arr).length then
    (writeArr h dst.arr (dst.off + dst.len) vals,
      { dst with len := dst.len + vals.length })
  else
    let content := readSlice h dst ++ vals
    ((allocArray h content).1, ⟨(allocArray h content).2, 0, content.length⟩)

/-- A slice header that points into its heap: Go's slice invariant
(`len(s) ≤ cap(s)`), which every slice produced by Go code satisfies. -/
def SliceWf (h : Heap) (sl : GoSlice) : Prop :=
  sl.arr < h.length ∧ sl.off + sl.len ≤ (readArr h sl.arr).length

instance (h : Heap) (sl : GoSlice) : Decidable (SliceWf h sl) := by
  unfold SliceWf; infer_instance

/-! ### Root `main.go` at slice level -/

structure RootState where
  heap : Heap
  clips : GoSlice
  lastContent : String
deriving DecidableEq, Repr

/-- `make([]string, 0, maxClips)`: one zeroed array of capacity 5. -/
def initialRootState : RootState :=
  { heap := [List.replicate maxClips ""], clips := ⟨0, 0, 0⟩, lastContent := "" }

/-- `addClip` again, now at slice level: the removal splice
`append(cm.clips[:i], cm.clips[i+1:]...)` writes into the shared backing
array; the prepend `append([]string{content}, cm.clips...)` starts from a
fresh one-cell literal array; `cm.clips[:maxClips]` only shortens the
header. -/
def addClipH (s : RootState) (content0 : String) : RootState :=
  let content := goTrimSpace content0
  if content = "" ∨ content = s.lastContent then s
  else
    let vals := readSlice s.heap s.clips
    let rem : Heap × GoSlice :=
      match vals.findIdx? (fun v => v = content) with
      | none => (s.heap, s.clips)
      | some i => goAppend s.heap ⟨s.clips.arr, s.clips.off, i⟩ (vals.drop (i + 1))
    let alloc1 := allocArray rem.1 [content]
    let p := goAppend alloc1.1 ⟨alloc1.2, 0, 1⟩ (readSlice alloc1.1 rem.2)
    let c3 := if p.2.len > maxClips then { p.2 with len := maxClips } else p.2
    { heap := p.1, clips := c3, lastContent := content }

/-- `getClips` returns the slice header itself — no copy. -/
def getClipsH (s : RootState) : GoSlice := s.clips

/-- The clear action: `clipManager.clips = []string{}` allocates a fresh
empty array and repoints the header; the old backing array is untouched. -/
def clearH (s : RootState) : RootState :=
  let alloc1 := allocArray s.heap []
  { s with heap := alloc1.1, clips := ⟨alloc1.2, 0, 0⟩ }

/-! ### Variant `multiclip/src/main.go` at slice level -/

structure VariantState where
  heap : Heap
  history : GoSlice
deriving DecidableEq, Repr

def initialVariantState : VariantState :=
  { heap := [List.replicate 5 ""], history := ⟨0, 0, 0⟩ }

/-- The variant's `AddItem`: trim, skip empty or over-200-byte text, skip
duplicates outright, prepend, truncate to 5. -/
def AddItemH (s : VariantState) (text0 : String) : VariantState :=
  let text := goTrimSpace text0
  if text = "" ∨ text.utf8ByteSize > 200 then s
  else if (readSlice s.heap s.history).contains text then s
  else
    let alloc1 := allocArray s.heap [text]
    let p := goAppend alloc1.1 ⟨alloc1.2, 0, 1⟩ (readSlice alloc1.1 s.history)
    let c3 := if p.2.len > 5 then { p.2 with len := 5 } else p.2
    { heap := p.1, history := c3 }

/-- The variant's `GetHistory`:
`result := make([]string, len(cm.history)); copy(result, cm.history)` —
a fresh array of exactly the history's length, filled by `copy` (cells
beyond the copied prefix keep the zero value `""`). -/
def GetHistoryH (s : VariantState) : Heap × GoSlice :=
  let vals := readSlice s.heap s.history
  let cells := vals ++ List.replicate (s.history.len - vals.length) ""
  let alloc1 := allocArray s.heap cells
  (alloc1.1, ⟨alloc1.2, 0, s.history.len⟩)

/-! ### Heap lemmas -/

theorem set_readArr_self (h : Heap) (a : Nat) : h.set a (readArr h a) = h := by
  induction h generalizing a with
  | nil => rfl
  | cons x xs ih =>
      cases a with
      | zero => rfl
      | succ a =>
          show x :: xs.set a (readArr (x :: xs) (a + 1)) = x :: xs
          rw [show readArr (x :: xs) (a + 1) = readArr xs a from rfl, ih]

theorem readArr_append (h e : Heap) (a : Nat) (ha : a < h.length) :
    readArr (h ++ e) a = readArr h a := by
  unfold readArr
  exact List.getD_append h e [] a ha

/-- Reads through a slice header into the live part of the heap are
unaffected by allocating further arrays. -/
theorem readSlice_append (h e : Heap) (sl : GoSlice) (ha : sl.arr < h.length) :
    readSlice (h ++ e) sl = readSlice h sl := by
  unfold readSlice
  rw [readArr_append h e sl.arr ha]

theorem readArr_concat (h : Heap) (cells : List String) :
    readArr (h ++ [cells]) h.length = cells := by
  unfold readArr
  rw [List.getD_append_right h [cells] [] h.length (le_refl _)]
  simp

/-- Appending onto a fresh one-cell literal array either writes nothing
(when the source is empty) or allocates a fresh array: it never touches
any previously allocated array. -/
theorem goAppend_fresh_heap (h : Heap) (text : String) (vals : List String) :
    (goAppend (h ++ [[text]]) ⟨h.length, 0, 1⟩ vals).1 = h ++ [[text]] ∨
      (goAppend (h ++ [[text]]) ⟨h.length, 0, 1⟩ vals).1 =
        (h ++ [[text]]) ++
          [readSlice (h ++ [[text]]) ⟨h.length, 0, 1⟩ ++ vals] := by
  unfold goAppend
  dsimp only
  split
  · left
    rename_i hfit
    rw [readArr_concat] at hfit
    have hv : vals = [] := by
      cases vals with
      | nil => rfl
      | cons v vs => simp at hfit
    subst hv
    show writeArr (h ++ [[text]]) h.length (0 + 1) [] = h ++ [[text]]
    unfold writeArr
    exact set_readArr_self _ _
  · right
    unfold allocArray
    rfl

/-- `AddItem` never writes into an existing array: its heap is an
extension of the input heap. -/
theorem AddItemH_heap_extends (s : VariantState) (t : String) :
    ∃ e, (AddItemH s t).heap = s.heap ++ e := by
  unfold AddItemH
  dsimp only
  split
  · exact ⟨[], by simp⟩
  split
  · exact ⟨[], by simp⟩
  · simp only [allocArray]
    rcases goAppend_fresh_heap s.heap (goTrimSpace t)
        (readSlice (s.heap ++ [[goTrimSpace t]]) s.history) with h1 | h1
    · exact ⟨[[goTrimSpace t]], h1⟩
    · exact ⟨[[goTrimSpace t]] ++
        [readSlice (s.heap ++ [[goTrimSpace t]]) ⟨s.heap.length, 0, 1⟩ ++
          readSlice (s.heap ++ [[goTrimSpace t]]) s.history],
        by rw [h1, List.append_assoc]⟩

/-- `GetHistory`'s fresh array reads back as the history it copied. -/
theorem GetHistoryH_read (s : VariantState) (hwf : SliceWf s.heap s.history) :
    readSlice (GetHistoryH s).1 (GetHistoryH s).2 =
      readSlice s.heap s.history := by
  obtain ⟨ha, hlen⟩ := hwf
  unfold GetHistoryH
  simp only [allocArray]
  unfold readSlice
  rw [readArr_concat, List.drop_zero]
  have hvlen :
      (((readArr s.heap s.history.arr).drop s.history.off).take s.history.len).length
        = s.history.len := by
    simp only [List.length_take, List.length_drop]
    omega
  rw [hvlen, Nat.sub_self, List.replicate_zero, List.append_nil]
  exact List.take_of_length_le (le_of_eq hvlen)

/-- C6 counterexample: in the root implementation, `getClips` returns an
aliased slice header; a later `addClip` that splices out an interior
entry rewrites the shared backing array, changing what the previously
returned snapshot reads — from `["c", "b", "a"]` to `["c", "a", "a"]`. -/
theorem getClips_alias_counterexample :
    readSlice (addClipH (addClipH (addClipH initialRootState "a") "b") "c").heap
        (getClipsH (addClipH (addClipH (addClipH initialRootState "a") "b") "c")) =
      ["c", "b", "a"] ∧
    readSlice
        (addClipH (addClipH (addClipH (addClipH initialRootState "a") "b") "c") "b").heap
        (getClipsH (addClipH (addClipH (addClipH initialRootState "a") "b") "c")) =
      ["c", "a", "a"] ∧
    readSlice
        (addClipH (addClipH (addClipH (addClipH initialRootState "a") "b") "c") "b").heap
        (getClipsH (addClipH (addClipH (addClipH initialRootState "a") "b") "c")) ≠
      readSlice (addClipH (addClipH (addClipH initialRootState "a") "b") "c").heap
        (getClipsH (addClipH (addClipH (addClipH initialRootState "a") "b") "c")) :=
  ⟨by decide, by decide, by decide⟩

/-- C6 amended: the variant's `GetHistory` does return an independent
copy — it reads back as the history at the time of the call, and a
subsequent `AddItem` leaves it unchanged. In the root implementation,
`clearH` also leaves a previously returned `getClips` snapshot
unchanged (it only repoints the header at a fresh empty array), but a
subsequent promoting `addClip` can rewrite it
(`getClips_alias_counterexample`). -/
theorem snapshot_copy_amended :
    (∀ (s : VariantState) (t : String), SliceWf s.heap s.history →
      readSlice (GetHistoryH s).1 (GetHistoryH s).2 =
          readSlice s.heap s.history ∧
        readSlice (AddItemH ⟨(GetHistoryH s).1, s.history⟩ t).heap
            (GetHistoryH s).2 =
          readSlice (GetHistoryH s).1 (GetHistoryH s).2) ∧
    (∀ r : RootState, SliceWf r.heap r.clips →
      readSlice (clearH r).heap (getClipsH r) =
        readSlice r.heap (getClipsH r)) := by
  constructor
  · intro s t hwf
    refine ⟨GetHistoryH_read s hwf, ?_⟩
    obtain ⟨e, he⟩ := AddItemH_heap_extends ⟨(GetHistoryH s).1, s.history⟩ t
    rw [he]
    apply readSlice_append
    show (GetHistoryH s).2.arr < ((GetHistoryH s).1).length
    unfold GetHistoryH
    simp [allocArray]
  · intro r hwf
    unfold clearH allocArray getClipsH
    dsimp only
    apply readSlice_append
    exact hwf.1

/-- Witness for the amended C6 on concrete states: a variant store
holding `["a"]` (its `GetHistory` snapshot survives a later
`AddItem "b"`), and a root store holding `["a"]` (its `getClips`
snapshot survives a later clear). -/
theorem snapshot_copy_amended_witness :
    SliceWf (AddItemH initialVariantState "a").heap
        (AddItemH initialVariantState "a").history ∧
      readSlice (GetHistoryH (AddItemH initialVariantState "a")).1
        (GetHistoryH (AddItemH initialVariantState "a")).2 = ["a"] ∧
      readSlice (AddItemH
            ⟨(GetHistoryH (AddItemH initialVariantState "a")).1,
              (AddItemH initialVariantState "a").history⟩ "b").heap
          (GetHistoryH (AddItemH initialVariantState "a")).2 = ["a"] ∧
      SliceWf (addClipH initialRootState "a").heap
        (addClipH initialRootState "a").clips ∧
      readSlice (clearH (addClipH initialRootState "a")).heap
          (getClipsH (addClipH initialRootState "a")) =
        readSlice (addClipH initialRootState "a").heap
          (getClipsH (addClipH initialRootState "a")) := by
  have h1 := snapshot_copy_amended.1 (AddItemH initialVariantState "a") "b"
    (by decide)
  have h2 := snapshot_copy_amended.2 (addClipH initialRootState "a") (by decide)
  refine ⟨by decide, ?_, ?_, by decide, h2⟩
  · rw [h1.1]; decide
  · rw [h1.2, h1.1]; decide
